import Mathlib

/-!
Verification of the `ScalarCore` scalar type
(`src/elliptic-curve/src/scalar/core.rs`).

`ScalarCore<C: Curve>` wraps the curve's fixed-width unsigned integer type
`C::UInt` and keeps it reduced modulo the curve order.  The curve descriptor
and the big-integer engine (`crypto-bigint`) are external collaborators of
this component; they are modelled here from the specification of their
interface (a modulus constant, a byte width, and modulus-parameterized
constant-time arithmetic on fixed-width unsigned integers).  Unsigned
integers are embedded as `Nat`, byte arrays as `List Nat` of the fixed
width with entries below 256.
-/

/-- Modelled from the spec: the Curve Descriptor collaborator.  It supplies
the scalar field's modulus (the group order `n`) and the byte width of the
fixed-width unsigned integer type `C::UInt`.  The order of a curve group is
at least 2 and must be representable in the integer type. -/
structure CurveDesc where
  byteSize : Nat
  order : Nat
  byteSize_pos : 0 < byteSize
  order_gt_one : 1 < order
  order_fits : order < 2 ^ (8 * byteSize)

/-- Modelled from the spec: the engine's constant-time less-than
(`ct_lt`) on fixed-width unsigned integers, returning a `Choice` flag that
is true exactly when `a < b` as unsigned magnitudes. -/
def ctLtNat (a b : Nat) : Bool := decide (a < b)

/-- Modelled from the spec: the engine's constant-time equality (`ct_eq`). -/
def ctEqNat (a b : Nat) : Bool := decide (a = b)

/-- Modelled from the spec: the engine's constant-time greater-than
(`ct_gt`). -/
def ctGtNat (a b : Nat) : Bool := decide (b < a)

/-- Modelled from the spec: the engine's modulus-parameterized addition
`add_mod`: for operands below the modulus it returns `(a + b) mod n`. -/
def addMod (a b n : Nat) : Nat := (a + b) % n

/-- Modelled from the spec: the engine's modulus-parameterized subtraction
`sub_mod`: for operands below the modulus it returns `(a - b) mod n`,
realized over `Nat` as `(a + n - b) mod n`. -/
def subMod (a b n : Nat) : Nat := (a + n - b) % n

/-- Modelled from the spec: the engine's modulus-parameterized negation
`neg_mod`: for an operand below the modulus it returns `(n - a) mod n`. -/
def negMod (a n : Nat) : Nat := (n - a) % n

/-- Modelled from the spec: the engine's constant-time conditional select:
returns `a` when the choice flag is false and `b` when it is true. -/
def condSelectNat (a b : Nat) (choice : Bool) : Nat := if choice then b else a

/-- Modelled from the spec: the engine's `random_mod` draws a value
uniformly in `[0, n)`; the randomness source is abstracted as the natural
number `r` it produces, reduced into range by the engine. -/
def randomMod (r n : Nat) : Nat := r % n

/-- Modelled from the spec: the engine's conversion from a 64-bit unsigned
integer (`From<u64> for C::UInt`): the value is embedded as-is, with no
reduction, into the wider fixed-width integer. -/
def uintFromU64 (x : Nat) : Nat := x

/-- Little-endian interpretation of a byte list as an unsigned integer
(the engine's `from_le_byte_array`). -/
def leBytesToNat : List Nat → Nat
  | [] => 0
  | b :: rest => b + 256 * leBytesToNat rest

/-- Little-endian encoding of an unsigned integer into `k` bytes
(the engine's `to_le_byte_array` for a `k`-byte integer type). -/
def natToLeBytes : Nat → Nat → List Nat
  | 0, _ => []
  | k + 1, x => x % 256 :: natToLeBytes k (x / 256)

/-- Big-endian interpretation of a byte list as an unsigned integer
(the engine's `from_be_byte_array`). -/
def beBytesToNat (l : List Nat) : Nat := leBytesToNat l.reverse

/-- Big-endian encoding of an unsigned integer into `k` bytes
(the engine's `to_be_byte_array` for a `k`-byte integer type). -/
def natToBeBytes (k x : Nat) : List Nat := (natToLeBytes k x).reverse

/-- A well-formed byte array of the curve's fixed width: the model of
`FieldBytes<C>` (`GenericArray<u8, C::FieldSize>`). -/
def WfBytes (c : CurveDesc) (l : List Nat) : Prop :=
  l.length = c.byteSize ∧ ∀ b ∈ l, b < 256

/-- `subtle::CtOption`: a value paired with a constant-time presence flag.
The value is always physically present; the flag records validity. -/
structure CtOption (α : Type) where
  value : α
  isSome : Bool

/-- `Option::from(CtOption)`: expose the value exactly when the presence
flag is set. -/
def CtOption.toOption {α : Type} (o : CtOption α) : Option α :=
  if o.isSome then some o.value else none

/-- `ScalarCore<C>` from `src/elliptic-curve/src/scalar/core.rs`: a wrapper
enforcing reduction modulo the curve order around the inner unsigned
integer. -/
structure ScalarCore (c : CurveDesc) where
  inner : Nat

namespace ScalarCore

/-- `ScalarCore::ZERO`. -/
def ZERO (c : CurveDesc) : ScalarCore c := ⟨0⟩

/-- `ScalarCore::ONE`. -/
def ONE (c : CurveDesc) : ScalarCore c := ⟨1⟩

/-- `ScalarCore::MODULUS`, i.e. `C::ORDER`. -/
def MODULUS (c : CurveDesc) : Nat := c.order

/-- `ScalarCore::random`: `C::UInt::random_mod(rng, &Self::MODULUS)`, with
the randomness stream abstracted by the natural number `r` it yields. -/
def random (c : CurveDesc) (r : Nat) : ScalarCore c :=
  ⟨randomMod r (MODULUS c)⟩

/-- `ScalarCore::new`: `CtOption::new(Self { inner: uint }, uint.ct_lt(&Self::MODULUS))`. -/
def new (c : CurveDesc) (uint : Nat) : CtOption (ScalarCore c) :=
  ⟨⟨uint⟩, ctLtNat uint (MODULUS c)⟩

/-- `ScalarCore::from_be_bytes`: decode big-endian fixed-width bytes, then
range-check through `new`. -/
def from_be_bytes (c : CurveDesc) (bytes : List Nat) : CtOption (ScalarCore c) :=
  new c (beBytesToNat bytes)

/-- `ScalarCore::from_le_bytes`: decode little-endian fixed-width bytes,
then range-check through `new`. -/
def from_le_bytes (c : CurveDesc) (bytes : List Nat) : CtOption (ScalarCore c) :=
  new c (leBytesToNat bytes)

/-- `ScalarCore::from_be_slice`: length check against `C::UInt::BYTE_SIZE`,
then delegate to `from_be_bytes`, mapping an absent decode to `Error`. -/
def from_be_slice (c : CurveDesc) (slice : List Nat) : Except Unit (ScalarCore c) :=
  if slice.length = c.byteSize then
    match (from_be_bytes c slice).toOption with
    | some s => Except.ok s
    | none => Except.error ()
  else
    Except.error ()

/-- `ScalarCore::from_le_slice`: length check against `C::UInt::BYTE_SIZE`,
then delegate to `from_le_bytes`, mapping an absent decode to `Error`. -/
def from_le_slice (c : CurveDesc) (slice : List Nat) : Except Unit (ScalarCore c) :=
  if slice.length = c.byteSize then
    match (from_le_bytes c slice).toOption with
    | some s => Except.ok s
    | none => Except.error ()
  else
    Except.error ()

/-- `ScalarCore::is_zero`. -/
def is_zero {c : CurveDesc} (a : ScalarCore c) : Bool := ctEqNat a.inner 0

/-- `ScalarCore::is_even`. -/
def is_even {c : CurveDesc} (a : ScalarCore c) : Bool := decide (a.inner % 2 = 0)

/-- `ScalarCore::is_odd`. -/
def is_odd {c : CurveDesc} (a : ScalarCore c) : Bool := decide (a.inner % 2 = 1)

/-- `ScalarCore::to_be_bytes`: `self.inner.to_be_byte_array()`. -/
def to_be_bytes {c : CurveDesc} (a : ScalarCore c) : List Nat :=
  natToBeBytes c.byteSize a.inner

/-- `ScalarCore::to_bytes_le`: `self.inner.to_le_byte_array()`. -/
def to_bytes_le {c : CurveDesc} (a : ScalarCore c) : List Nat :=
  natToLeBytes c.byteSize a.inner

/-- `ConditionallySelectable::conditional_select` for `ScalarCore`. -/
def conditional_select {c : CurveDesc} (a b : ScalarCore c) (choice : Bool) :
    ScalarCore c :=
  ⟨condSelectNat a.inner b.inner choice⟩

/-- `ConstantTimeEq::ct_eq` for `ScalarCore`. -/
def ct_eq {c : CurveDesc} (a b : ScalarCore c) : Bool := ctEqNat a.inner b.inner

/-- `ConstantTimeLess::ct_lt` for `ScalarCore`. -/
def ct_lt {c : CurveDesc} (a b : ScalarCore c) : Bool := ctLtNat a.inner b.inner

/-- `ConstantTimeGreater::ct_gt` for `ScalarCore`. -/
def ct_gt {c : CurveDesc} (a b : ScalarCore c) : Bool := ctGtNat a.inner b.inner

/-- `PartialEq::eq` for `ScalarCore`: `self.ct_eq(other).into()`. -/
def eq {c : CurveDesc} (a b : ScalarCore c) : Bool := ct_eq a b

/-- `Ord::cmp` for `ScalarCore`: `self.inner.cmp(&other.inner)`. -/
def cmp {c : CurveDesc} (a b : ScalarCore c) : Ordering :=
  compare a.inner b.inner

/-- `From<u64> for ScalarCore`: `Self { inner: C::UInt::from(n) }`, with no
range check and no reduction. -/
def from_u64 (c : CurveDesc) (x : Nat) : ScalarCore c := ⟨uintFromU64 x⟩

/-- `Add<&ScalarCore<C>>::add`: `self.inner.add_mod(&other.inner, &Self::MODULUS)`. -/
def add {c : CurveDesc} (a b : ScalarCore c) : ScalarCore c :=
  ⟨addMod a.inner b.inner (MODULUS c)⟩

/-- `Sub<&ScalarCore<C>>::sub`: `self.inner.sub_mod(&other.inner, &Self::MODULUS)`. -/
def sub {c : CurveDesc} (a b : ScalarCore c) : ScalarCore c :=
  ⟨subMod a.inner b.inner (MODULUS c)⟩

/-- `Neg::neg`: `self.inner.neg_mod(&Self::MODULUS)`. -/
def neg {c : CurveDesc} (a : ScalarCore c) : ScalarCore c :=
  ⟨negMod a.inner (MODULUS c)⟩

end ScalarCore

/-- Modelled from the spec: `Scalar::<C>::from_repr` of the curve-specific
scalar type (the `ScalarArithmetic` collaborator, absent from the given
sources).  Per the spec's optional-upgrade bridge, the richer type is
constructed from the canonical big-endian byte encoding and accepts exactly
the canonical encodings of integers in `[0, n)`. -/
def scalarFromRepr (c : CurveDesc) (bytes : List Nat) : Option Nat :=
  let x := beBytesToNat bytes
  if x < c.order then some x else none

/-- `ScalarCore::to_scalar`: `Scalar::<C>::from_repr(self.to_be_bytes()).unwrap()`,
where the `unwrap` panics iff `from_repr` returned an absent result. -/
def ScalarCore.to_scalar {c : CurveDesc} (a : ScalarCore c) : Option Nat :=
  scalarFromRepr c (ScalarCore.to_be_bytes a)

/-- A concrete toy curve descriptor with the spec's worked modulus `n = 11`
on a 64-bit (8-byte) integer width, used for concrete evaluations. -/
def c11 : CurveDesc :=
  ⟨8, 11, by decide, by decide, by norm_num⟩

theorem natToLeBytes_length (k x : Nat) : (natToLeBytes k x).length = k := by
  induction k generalizing x with
  | zero => simp [natToLeBytes]
  | succ k ih => simp [natToLeBytes, ih]

theorem natToLeBytes_mem_lt (k x : Nat) :
    ∀ b ∈ natToLeBytes k x, b < 256 := by
  induction k generalizing x with
  | zero => simp [natToLeBytes]
  | succ k ih =>
    intro b hb
    simp only [natToLeBytes, List.mem_cons] at hb
    rcases hb with h | h
    · subst h; exact Nat.mod_lt _ (by omega)
    · exact ih _ b h

theorem leBytesToNat_natToLeBytes (k : Nat) :
    ∀ x : Nat, x < 256 ^ k → leBytesToNat (natToLeBytes k x) = x := by
  induction k with
  | zero =>
    intro x hx
    simp only [pow_zero, Nat.lt_one_iff] at hx
    subst hx
    rfl
  | succ k ih =>
    intro x hx
    have hdiv : x / 256 < 256 ^ k := by
      rw [Nat.div_lt_iff_lt_mul (by omega)]
      calc x < 256 ^ (k + 1) := hx
        _ = 256 ^ k * 256 := by ring
    simp only [natToLeBytes, leBytesToNat, ih _ hdiv]
    omega

theorem natToLeBytes_leBytesToNat :
    ∀ l : List Nat, (∀ b ∈ l, b < 256) →
      natToLeBytes l.length (leBytesToNat l) = l := by
  intro l
  induction l with
  | nil => intro _; rfl
  | cons b rest ih =>
    intro hwf
    have hb : b < 256 := hwf b (List.mem_cons_self b rest)
    have hrest : ∀ x ∈ rest, x < 256 := fun x hx => hwf x (List.mem_cons_of_mem b hx)
    simp only [List.length_cons, natToLeBytes, leBytesToNat]
    have hmod : (b + 256 * leBytesToNat rest) % 256 = b := by
      rw [Nat.add_mul_mod_self_left]
      exact Nat.mod_eq_of_lt hb
    have hdiv : (b + 256 * leBytesToNat rest) / 256 = leBytesToNat rest := by
      rw [Nat.add_mul_div_left _ _ (by omega)]
      simp [Nat.div_eq_of_lt hb]
    rw [hmod, hdiv, ih hrest]

theorem leBytesToNat_lt (l : List Nat) (hwf : ∀ b ∈ l, b < 256) :
    leBytesToNat l < 256 ^ l.length := by
  induction l with
  | nil => simp [leBytesToNat]
  | cons b rest ih =>
    have hb : b < 256 := hwf b (List.mem_cons_self b rest)
    have hrest := ih (fun x hx => hwf x (List.mem_cons_of_mem b hx))
    simp only [leBytesToNat, List.length_cons, pow_succ]
    calc b + 256 * leBytesToNat rest
        ≤ 255 + 256 * (256 ^ rest.length - 1) := by
          have : leBytesToNat rest ≤ 256 ^ rest.length - 1 := by omega
          omega
      _ < 256 ^ rest.length * 256 := by
          have : 1 ≤ 256 ^ rest.length := Nat.one_le_pow _ _ (by omega)
          omega

theorem beBytesToNat_natToBeBytes (k x : Nat) (hx : x < 256 ^ k) :
    beBytesToNat (natToBeBytes k x) = x := by
  unfold beBytesToNat natToBeBytes
  rw [List.reverse_reverse]
  exact leBytesToNat_natToLeBytes k x hx

theorem natToBeBytes_beBytesToNat (l : List Nat) (hwf : ∀ b ∈ l, b < 256) :
    natToBeBytes l.length (beBytesToNat l) = l := by
  unfold beBytesToNat natToBeBytes
  have hlen : l.reverse.length = l.length := List.length_reverse l
  have hrev : ∀ b ∈ l.reverse, b < 256 := fun b hb =>
    hwf b (List.mem_reverse.mp hb)
  rw [← hlen, natToLeBytes_leBytesToNat l.reverse hrev, List.reverse_reverse]

theorem natToBeBytes_length (k x : Nat) : (natToBeBytes k x).length = k := by
  unfold natToBeBytes
  rw [List.length_reverse, natToLeBytes_length]

/-- The byte width and the bit width of the integer type agree:
`2 ^ (8 k) = 256 ^ k`. -/
theorem two_pow_eight_mul (k : Nat) : 2 ^ (8 * k) = 256 ^ k := by
  rw [pow_mul]
  norm_num

theorem order_lt_bytePow (c : CurveDesc) : c.order < 256 ^ c.byteSize := by
  have := c.order_fits
  rwa [two_pow_eight_mul] at this

theorem from_be_slice_ok_iff (c : CurveDesc) (slice : List Nat) (s : ScalarCore c) :
    ScalarCore.from_be_slice c slice = Except.ok s ↔
      slice.length = c.byteSize ∧
        (ScalarCore.from_be_bytes c slice).isSome = true ∧
        (ScalarCore.from_be_bytes c slice).value = s := by
  unfold ScalarCore.from_be_slice CtOption.toOption
  by_cases hlen : slice.length = c.byteSize
  · by_cases hs : (ScalarCore.from_be_bytes c slice).isSome
    · simp [hlen, hs, Except.ok.injEq, eq_comm]
    · simp [hlen, hs]
  · simp [hlen]

theorem from_le_slice_ok_iff (c : CurveDesc) (slice : List Nat) (s : ScalarCore c) :
    ScalarCore.from_le_slice c slice = Except.ok s ↔
      slice.length = c.byteSize ∧
        (ScalarCore.from_le_bytes c slice).isSome = true ∧
        (ScalarCore.from_le_bytes c slice).value = s := by
  unfold ScalarCore.from_le_slice CtOption.toOption
  by_cases hlen : slice.length = c.byteSize
  · by_cases hs : (ScalarCore.from_le_bytes c slice).isSome
    · simp [hlen, hs, Except.ok.injEq, eq_comm]
    · simp [hlen, hs]
  · simp [hlen]

theorem new_isSome_iff (c : CurveDesc) (u : Nat) :
    (ScalarCore.new c u).isSome = true ↔ u < c.order := by
  simp [ScalarCore.new, ctLtNat, ScalarCore.MODULUS]

theorem new_value_inner (c : CurveDesc) (u : Nat) :
    (ScalarCore.new c u).value.inner = u := rfl

/-- Claim C1 (amended): every constructor and operation other than
`From<u64>` keeps the inner integer strictly below the modulus: `new`,
`from_be_bytes`, `from_le_bytes` whenever present, `from_be_slice`,
`from_le_slice` whenever they succeed, `random` always, and `add`, `sub`,
`neg`, `conditional_select` on in-range operands; `From<u64>` embeds its
argument with no reduction, so its result satisfies the invariant exactly
when the argument is below the modulus. -/
theorem scalarCore_range_invariant (c : CurveDesc) (a b : ScalarCore c)
    (ha : a.inner < c.order) (hb : b.inner < c.order)
    (u r x : Nat) (bytes lbytes slice lslice : List Nat) (ch : Bool) :
    ((ScalarCore.new c u).isSome = true → (ScalarCore.new c u).value.inner < c.order) ∧
    (ScalarCore.random c r).inner < c.order ∧
    ((ScalarCore.from_be_bytes c bytes).isSome = true →
      (ScalarCore.from_be_bytes c bytes).value.inner < c.order) ∧
    ((ScalarCore.from_le_bytes c lbytes).isSome = true →
      (ScalarCore.from_le_bytes c lbytes).value.inner < c.order) ∧
    (∀ s : ScalarCore c, ScalarCore.from_be_slice c slice = Except.ok s →
      s.inner < c.order) ∧
    (∀ s : ScalarCore c, ScalarCore.from_le_slice c lslice = Except.ok s →
      s.inner < c.order) ∧
    (ScalarCore.add a b).inner < c.order ∧
    (ScalarCore.sub a b).inner < c.order ∧
    (ScalarCore.neg a).inner < c.order ∧
    (ScalarCore.conditional_select a b ch).inner < c.order ∧
    ((ScalarCore.from_u64 c x).inner < c.order ↔ x < c.order) := by
  have hn : 0 < c.order := by have := c.order_gt_one; omega
  refine ⟨?_, ?_, ?_, ?_, ?_, ?_, ?_, ?_, ?_, ?_, ?_⟩
  · intro h
    rw [new_isSome_iff] at h
    rwa [new_value_inner]
  · exact Nat.mod_lt _ hn
  · intro h
    rw [ScalarCore.from_be_bytes, new_isSome_iff] at h
    rwa [ScalarCore.from_be_bytes, new_value_inner]
  · intro h
    rw [ScalarCore.from_le_bytes, new_isSome_iff] at h
    rwa [ScalarCore.from_le_bytes, new_value_inner]
  · intro s h
    rw [from_be_slice_ok_iff] at h
    obtain ⟨_, hs, hv⟩ := h
    rw [ScalarCore.from_be_bytes, new_isSome_iff] at hs
    rw [← hv, ScalarCore.from_be_bytes, new_value_inner]
    exact hs
  · intro s h
    rw [from_le_slice_ok_iff] at h
    obtain ⟨_, hs, hv⟩ := h
    rw [ScalarCore.from_le_bytes, new_isSome_iff] at hs
    rw [← hv, ScalarCore.from_le_bytes, new_value_inner]
    exact hs
  · exact Nat.mod_lt _ hn
  · exact Nat.mod_lt _ hn
  · exact Nat.mod_lt _ hn
  · cases ch with
    | false => simpa [ScalarCore.conditional_select, condSelectNat] using ha
    | true => simpa [ScalarCore.conditional_select, condSelectNat] using hb
  · simp [ScalarCore.from_u64, uintFromU64]

theorem scalarCore_range_invariant_witness :
    ((7 : Nat) < c11.order ∧ (9 : Nat) < c11.order) ∧
    (ScalarCore.add (c := c11) ⟨7⟩ ⟨9⟩).inner < c11.order :=
  ⟨⟨by decide, by decide⟩,
    (scalarCore_range_invariant c11 ⟨7⟩ ⟨9⟩ (by decide) (by decide) 5 23 3
      [] [] [] [] true).2.2.2.2.2.2.1⟩

/-- Claim C1 counterexample: `From<u64>` performs no reduction, so a curve
whose order lies below the embedded value receives a live `ScalarCore`
violating the range invariant: with the toy 64-bit curve of order 11,
`ScalarCore::from(17u64)` has `inner = 17 ≥ 11`. -/
theorem from_u64_breaks_range_invariant :
    (ScalarCore.from_u64 c11 17).inner = 17 ∧
    ¬ (ScalarCore.from_u64 c11 17).inner < c11.order := by
  exact ⟨rfl, by decide⟩

/-- Claim C2: `new(x)` is present iff `x < n`, and the wrapped value's
inner integer is `x`; `new(n - 1)` is present and is the maximal scalar,
while `new(y)` for every `y ≥ n` is absent. -/
theorem new_range_check (c : CurveDesc) (x y : Nat) (hy : c.order ≤ y) :
    ((ScalarCore.new c x).isSome = true ↔ x < c.order) ∧
    (ScalarCore.new c x).value.inner = x ∧
    (ScalarCore.new c (c.order - 1)).isSome = true ∧
    (ScalarCore.new c (c.order - 1)).value.inner = c.order - 1 ∧
    (∀ a : ScalarCore c, a.inner < c.order → a.inner ≤ c.order - 1) ∧
    (ScalarCore.new c y).isSome = false := by
  have hn : 1 < c.order := c.order_gt_one
  refine ⟨new_isSome_iff c x, new_value_inner c x, ?_, new_value_inner c _, ?_, ?_⟩
  · rw [new_isSome_iff]; omega
  · intro a haa; omega
  · have hiff := new_isSome_iff c y
    by_cases h : (ScalarCore.new c y).isSome = true
    · rw [hiff] at h; omega
    · simpa using h

theorem new_range_check_witness :
    c11.order ≤ 11 ∧ (ScalarCore.new c11 11).isSome = false :=
  ⟨by decide, (new_range_check c11 5 11 (by decide)).2.2.2.2.2⟩

/-- Claim C3: for in-range operands, `add` computes `(a + b) mod n`, `sub`
computes `(a - b) mod n` (as integers), `neg` computes `(n - a) mod n`
with `neg ZERO = ZERO`, and every result is canonically reduced into
`[0, n)`. -/
theorem arithmetic_mod_n (c : CurveDesc) (a b : ScalarCore c)
    (ha : a.inner < c.order) (hb : b.inner < c.order) :
    (ScalarCore.add a b).inner = (a.inner + b.inner) % c.order ∧
    ((ScalarCore.sub a b).inner : Int) =
      ((a.inner : Int) - (b.inner : Int)) % (c.order : Int) ∧
    (ScalarCore.neg a).inner = (c.order - a.inner) % c.order ∧
    ScalarCore.neg (ScalarCore.ZERO c) = ScalarCore.ZERO c ∧
    (ScalarCore.add a b).inner < c.order ∧
    (ScalarCore.sub a b).inner < c.order ∧
    (ScalarCore.neg a).inner < c.order := by
  have hn : 0 < c.order := by have := c.order_gt_one; omega
  refine ⟨rfl, ?_, rfl, ?_, Nat.mod_lt _ hn, Nat.mod_lt _ hn, Nat.mod_lt _ hn⟩
  · show (((a.inner + c.order - b.inner) % c.order : Nat) : Int) = _
    have hble : b.inner ≤ a.inner + c.order := by omega
    push_cast [hble]
    have harr : (a.inner : Int) + (c.order : Int) - (b.inner : Int) =
        ((a.inner : Int) - (b.inner : Int)) + (c.order : Int) * 1 := by ring
    rw [harr, Int.add_mul_emod_self_left]
  · show (⟨(c.order - 0) % c.order⟩ : ScalarCore c) = ⟨0⟩
    rw [Nat.sub_zero, Nat.mod_self]

theorem arithmetic_mod_n_witness :
    ((7 : Nat) < c11.order ∧ (9 : Nat) < c11.order) ∧
    (ScalarCore.add (c := c11) ⟨7⟩ ⟨9⟩).inner = (7 + 9) % c11.order :=
  ⟨⟨by decide, by decide⟩,
    (arithmetic_mod_n c11 ⟨7⟩ ⟨9⟩ (by decide) (by decide)).1⟩

/-- Claim C4: for every valid scalar, decoding its encoding round-trips in
both endiannesses: `from_be_bytes (to_be_bytes a)` is present and wraps
`a`, and likewise `from_le_bytes (to_bytes_le a)`. -/
theorem encode_decode_roundtrip (c : CurveDesc) (a : ScalarCore c)
    (ha : a.inner < c.order) :
    (ScalarCore.from_be_bytes c (ScalarCore.to_be_bytes a)).isSome = true ∧
    (ScalarCore.from_be_bytes c (ScalarCore.to_be_bytes a)).value = a ∧
    (ScalarCore.from_le_bytes c (ScalarCore.to_bytes_le a)).isSome = true ∧
    (ScalarCore.from_le_bytes c (ScalarCore.to_bytes_le a)).value = a := by
  have hlt : a.inner < 256 ^ c.byteSize := lt_trans ha (order_lt_bytePow c)
  have hbe : beBytesToNat (ScalarCore.to_be_bytes a) = a.inner :=
    beBytesToNat_natToBeBytes c.byteSize a.inner hlt
  have hle : leBytesToNat (ScalarCore.to_bytes_le a) = a.inner :=
    leBytesToNat_natToLeBytes c.byteSize a.inner hlt
  refine ⟨?_, ?_, ?_, ?_⟩
  · rw [ScalarCore.from_be_bytes, new_isSome_iff, hbe]; exact ha
  · rw [ScalarCore.from_be_bytes]
    show (⟨beBytesToNat (ScalarCore.to_be_bytes a)⟩ : ScalarCore c) = a
    rw [hbe]
  · rw [ScalarCore.from_le_bytes, new_isSome_iff, hle]; exact ha
  · rw [ScalarCore.from_le_bytes]
    show (⟨leBytesToNat (ScalarCore.to_bytes_le a)⟩ : ScalarCore c) = a
    rw [hle]

theorem encode_decode_roundtrip_witness :
    (7 : Nat) < c11.order ∧
    (ScalarCore.from_be_bytes c11 (ScalarCore.to_be_bytes (c := c11) ⟨7⟩)).isSome = true :=
  ⟨by decide, (encode_decode_roundtrip c11 ⟨7⟩ (by decide)).1⟩

/-- Claim C5: for all valid scalars `a` and `b`,
`sub(a, b) = add(a, neg(b))`. -/
theorem scalarCore_sub_eq_add_neg (c : CurveDesc) (a b : ScalarCore c)
    (ha : a.inner < c.order) (hb : b.inner < c.order) :
    ScalarCore.sub a b = ScalarCore.add a (ScalarCore.neg b) := by
  show (⟨subMod a.inner b.inner c.order⟩ : ScalarCore c) =
    ⟨addMod a.inner (negMod b.inner c.order) c.order⟩
  unfold subMod addMod negMod
  rcases Nat.eq_zero_or_pos b.inner with h0 | hpos
  · simp [h0, Nat.mod_self]
  · have hlt : c.order - b.inner < c.order := by omega
    rw [Nat.mod_eq_of_lt hlt]
    have harr : a.inner + c.order - b.inner = a.inner + (c.order - b.inner) := by
      omega
    rw [harr]

theorem scalarCore_sub_eq_add_neg_witness :
    ((7 : Nat) < c11.order ∧ (9 : Nat) < c11.order) ∧
    ScalarCore.sub (c := c11) ⟨7⟩ ⟨9⟩ =
      ScalarCore.add (c := c11) ⟨7⟩ (ScalarCore.neg (c := c11) ⟨9⟩) :=
  ⟨⟨by decide, by decide⟩,
    scalarCore_sub_eq_add_neg c11 ⟨7⟩ ⟨9⟩ (by decide) (by decide)⟩

/-- Claim C6: `from_be_slice` and `from_le_slice` return the error value
whenever the slice length differs from the curve's byte width, regardless
of content; when the length matches exactly they return the result of the
fixed-width decode, with an absent decode mapped to the error value. -/
theorem slice_decode_length_check (c : CurveDesc) (slice : List Nat) :
    (slice.length ≠ c.byteSize →
      ScalarCore.from_be_slice c slice = Except.error () ∧
      ScalarCore.from_le_slice c slice = Except.error ()) ∧
    (slice.length = c.byteSize →
      ((ScalarCore.from_be_bytes c slice).isSome = true →
        ScalarCore.from_be_slice c slice =
          Except.ok (ScalarCore.from_be_bytes c slice).value) ∧
      ((ScalarCore.from_be_bytes c slice).isSome = false →
        ScalarCore.from_be_slice c slice = Except.error ()) ∧
      ((ScalarCore.from_le_bytes c slice).isSome = true →
        ScalarCore.from_le_slice c slice =
          Except.ok (ScalarCore.from_le_bytes c slice).value) ∧
      ((ScalarCore.from_le_bytes c slice).isSome = false →
        ScalarCore.from_le_slice c slice = Except.error ())) := by
  constructor
  · intro hlen
    constructor
    · unfold ScalarCore.from_be_slice
      simp [hlen]
    · unfold ScalarCore.from_le_slice
      simp [hlen]
  · intro hlen
    refine ⟨?_, ?_, ?_, ?_⟩
    · intro hs
      rw [from_be_slice_ok_iff]
      exact ⟨hlen, hs, rfl⟩
    · intro hs
      unfold ScalarCore.from_be_slice CtOption.toOption
      simp [hlen, hs]
    · intro hs
      rw [from_le_slice_ok_iff]
      exact ⟨hlen, hs, rfl⟩
    · intro hs
      unfold ScalarCore.from_le_slice CtOption.toOption
      simp [hlen, hs]

theorem slice_decode_length_check_witness :
    ([1, 2, 3] : List Nat).length ≠ c11.byteSize ∧
    ScalarCore.from_be_slice c11 [1, 2, 3] = Except.error () :=
  ⟨by decide, ((slice_decode_length_check c11 [1, 2, 3]).1 (by decide)).1⟩

/-- Claim C7: `conditional_select(a, b, flag)` returns `a` when the flag is
false and `b` when the flag is true. -/
theorem conditional_select_correct (c : CurveDesc) (a b : ScalarCore c) :
    ScalarCore.conditional_select a b false = a ∧
    ScalarCore.conditional_select a b true = b := by
  cases a with
  | mk x =>
    cases b with
    | mk y => exact ⟨rfl, rfl⟩

/-- Claim C8: the comparison operations agree with unsigned-integer
magnitude comparison of the inner values — `ct_eq` (and `PartialEq::eq`)
with equality, `ct_lt` with strict less-than, `ct_gt` with strict
greater-than, `Ord::cmp` with `compare` — and form a total order:
antisymmetric, transitive, and total. -/
theorem comparison_total_order (c : CurveDesc) (a b d : ScalarCore c) :
    (ScalarCore.ct_eq a b = true ↔ a.inner = b.inner) ∧
    (ScalarCore.eq a b = true ↔ a.inner = b.inner) ∧
    (ScalarCore.ct_lt a b = true ↔ a.inner < b.inner) ∧
    (ScalarCore.ct_gt a b = true ↔ b.inner < a.inner) ∧
    (ScalarCore.cmp a b = Ordering.lt ↔ a.inner < b.inner) ∧
    (ScalarCore.cmp a b = Ordering.eq ↔ a.inner = b.inner) ∧
    (ScalarCore.cmp a b = Ordering.gt ↔ b.inner < a.inner) ∧
    (ScalarCore.ct_lt a b = true → ScalarCore.ct_lt b a = false) ∧
    (ScalarCore.ct_lt a b = true → ScalarCore.ct_lt b d = true →
      ScalarCore.ct_lt a d = true) ∧
    (ScalarCore.ct_lt a b = true ∨ ScalarCore.ct_eq a b = true ∨
      ScalarCore.ct_gt a b = true) := by
  refine ⟨?_, ?_, ?_, ?_, ?_, ?_, ?_, ?_, ?_, ?_⟩
  · simp [ScalarCore.ct_eq, ctEqNat]
  · simp [ScalarCore.eq, ScalarCore.ct_eq, ctEqNat]
  · simp [ScalarCore.ct_lt, ctLtNat]
  · simp [ScalarCore.ct_gt, ctGtNat]
  · rw [ScalarCore.cmp, Nat.compare_eq_lt]
  · rw [ScalarCore.cmp, Nat.compare_eq_eq]
  · rw [ScalarCore.cmp, Nat.compare_eq_gt]
  · intro h
    simp only [ScalarCore.ct_lt, ctLtNat, decide_eq_true_eq] at h
    simp [ScalarCore.ct_lt, ctLtNat]
    omega
  · intro h1 h2
    simp only [ScalarCore.ct_lt, ctLtNat, decide_eq_true_eq] at h1 h2 ⊢
    omega
  · simp only [ScalarCore.ct_lt, ctLtNat, ScalarCore.ct_eq, ctEqNat,
      ScalarCore.ct_gt, ctGtNat, decide_eq_true_eq]
    omega

theorem comparison_total_order_witness :
    ScalarCore.ct_lt (c := c11) ⟨3⟩ ⟨5⟩ = true ∧
    ScalarCore.ct_lt (c := c11) ⟨5⟩ ⟨3⟩ = false :=
  ⟨by decide,
    (comparison_total_order c11 ⟨3⟩ ⟨5⟩ ⟨7⟩).2.2.2.2.2.2.2.1 (by decide)⟩

/-- Claim C9: for every `ScalarCore` satisfying the range invariant,
`to_scalar` never panics: `Scalar::from_repr` applied to the canonical
big-endian encoding of an in-range scalar always yields a present result
(here, `to_scalar` returns `some` of the scalar's integer value). -/
theorem to_scalar_never_panics (c : CurveDesc) (a : ScalarCore c)
    (ha : a.inner < c.order) :
    ScalarCore.to_scalar a = some a.inner := by
  unfold ScalarCore.to_scalar scalarFromRepr
  have hlt : a.inner < 256 ^ c.byteSize := lt_trans ha (order_lt_bytePow c)
  have hbe : beBytesToNat (ScalarCore.to_be_bytes a) = a.inner :=
    beBytesToNat_natToBeBytes c.byteSize a.inner hlt
  simp [hbe, ha]

theorem to_scalar_never_panics_witness :
    (7 : Nat) < c11.order ∧
    ScalarCore.to_scalar (c := c11) ⟨7⟩ = some 7 :=
  ⟨by decide, to_scalar_never_panics c11 ⟨7⟩ (by decide)⟩

/-- Claim C10: decoding is lossless in the decode-then-encode direction:
for every fixed-width byte array whose big-endian decode is present,
re-encoding the decoded scalar reproduces the array, and likewise for
little-endian. -/
theorem decode_encode_roundtrip (c : CurveDesc) (bytes lbytes : List Nat)
    (hwf : WfBytes c bytes) (hlwf : WfBytes c lbytes)
    (hbe : (ScalarCore.from_be_bytes c bytes).isSome = true)
    (hle : (ScalarCore.from_le_bytes c lbytes).isSome = true) :
    ScalarCore.to_be_bytes (ScalarCore.from_be_bytes c bytes).value = bytes ∧
    ScalarCore.to_bytes_le (ScalarCore.from_le_bytes c lbytes).value = lbytes := by
  obtain ⟨hblen, hbval⟩ := hwf
  obtain ⟨hllen, hlval⟩ := hlwf
  constructor
  · show natToBeBytes c.byteSize (beBytesToNat bytes) = bytes
    rw [← hblen]
    exact natToBeBytes_beBytesToNat bytes hbval
  · show natToLeBytes c.byteSize (leBytesToNat lbytes) = lbytes
    rw [← hllen]
    exact natToLeBytes_leBytesToNat lbytes hlval

theorem decode_encode_roundtrip_witness :
    (WfBytes c11 [0, 0, 0, 0, 0, 0, 0, 5] ∧
      (ScalarCore.from_be_bytes c11 [0, 0, 0, 0, 0, 0, 0, 5]).isSome = true) ∧
    ScalarCore.to_be_bytes
        (ScalarCore.from_be_bytes c11 [0, 0, 0, 0, 0, 0, 0, 5]).value =
      [0, 0, 0, 0, 0, 0, 0, 5] :=
  ⟨⟨⟨by decide, by decide⟩, by decide⟩,
    (decode_encode_roundtrip c11 [0, 0, 0, 0, 0, 0, 0, 5]
      [5, 0, 0, 0, 0, 0, 0, 0] ⟨by decide, by decide⟩ ⟨by decide, by decide⟩
      (by decide) (by decide)).1⟩
